import Mathlib

/-!
Shallow embedding of the town classifier of `src/server.js` (functions
`slugifyTown`, lines 92-99, and `buildTownIndex`, lines 829-895).

Modelling conventions:
* A JavaScript `Date` instant is an `Int` of milliseconds since the epoch.
  The local timezone is modelled with offset 0 (local time = UTC), so the
  local calendar day of an instant `t` is `Int.fdiv t msPerDay`.
* `new Date(s)` applied to a date string is modelled by its result: a
  `JDate := Option Int`, where `none` is an Invalid Date (`NaN` time value).
  Comparisons with an Invalid Date are `false`, as `NaN` comparisons are.
* `startOfTodayLocal()` reads the wall clock; its result is passed to
  `buildTownIndex` as the explicit parameter `today`.
* `toISOString()` on a valid date is injective, so the produced ISO strings
  are kept as the underlying `Int` instants; on an Invalid Date it throws a
  `RangeError`, modelled by `Except.error "Invalid time value"`.
* A JavaScript `Object` keyed by town name is an association list in key
  insertion order (town names are not integer-like keys).
* `Array.prototype.sort` is a stable sort; stable sorting is a unique
  permutation, so it is modelled by a stable insertion sort.
-/

namespace Reagal

/-- Milliseconds in one day. -/
def msPerDay : Int := 86400000

/-- Result of `new Date(str)`: `some t` a valid instant, `none` an Invalid Date. -/
abbrev JDate := Option Int

/-- JavaScript `<` on two Date values: false whenever either is Invalid (NaN). -/
def jsLT : JDate → JDate → Bool
  | some a, some b => a < b
  | _, _ => false

/-- JavaScript `>` on two Date values: false whenever either is Invalid (NaN). -/
def jsGT : JDate → JDate → Bool
  | some a, some b => b < a
  | _, _ => false

/-- One event object as consumed by `buildTownIndex`: only its `dates` array
matters there; `none` models a missing `dates` field (`ev.dates || []`), and
each entry is the parsed `d.startISO`. -/
structure Event where
  dates : Option (List JDate)
deriving DecidableEq

/-- The lifecycle status strings assigned by `buildTownIndex`. -/
inductive Status
  | FINAL_DAY
  | IN_TOWN_NOW
  | NEXT_STOP
  | COMING_SOON
  | LATER
  | PAST
deriving DecidableEq

/-- The town record object built by `buildTownIndex` (`src/server.js` 850-858). -/
structure TownRecord where
  town : String
  townSlug : String
  startDateISO : Int
  endDateISO : Int
  status : Status
  events : List Event
deriving DecidableEq

/-- `.trim()`: drop leading and trailing whitespace (modelled over the ASCII
whitespace characters Lean's `Char.isWhitespace` recognises). -/
def trimChars (cs : List Char) : List Char :=
  ((cs.dropWhile Char.isWhitespace).reverse.dropWhile Char.isWhitespace).reverse

/-- `[a-z0-9]`, the characters the slug regex keeps. -/
def isSlugChar (c : Char) : Bool :=
  (97 ≤ c.toNat && c.toNat ≤ 122) || (48 ≤ c.toNat && c.toNat ≤ 57)

/-- `.replace(/[^a-z0-9]+/g, "-")`, second half: collapse each run of dashes
(produced from a run of non-alphanumerics) to a single dash. -/
def squashDashes : List Char → List Char
  | [] => []
  | c :: cs =>
    if c = '-' && cs.head? == some '-' then squashDashes cs
    else c :: squashDashes cs

/-- `slugifyTown` (`src/server.js` 92-99): trim, lower-case, `&` → `and`,
collapse non-alphanumeric runs to one hyphen, strip leading/trailing hyphens.
`toLowerCase()` is modelled by `Char.toLower` (they agree on ASCII; any
character outside `[a-z0-9]` is replaced by a hyphen afterwards either way).
After `squashDashes` there are no adjacent dashes, so dropping all leading and
trailing dashes coincides with the `/(^-|-$)+/g` replacement. -/
def slugifyTown (town : String) : String :=
  let cs := (trimChars town.toList).map Char.toLower
  let cs := (cs.map (fun c => if c = '&' then ['a', 'n', 'd'] else [c])).flatten
  let cs := squashDashes (cs.map (fun c => if isSlugChar c then c else '-'))
  let cs := ((cs.dropWhile (fun c => c == '-')).reverse.dropWhile (fun c => c == '-')).reverse
  String.mk cs

/-- One step of the running minimum: `if (!minStart || dt < minStart) minStart = dt`. -/
def updMin (m : Option JDate) (dt : JDate) : Option JDate :=
  match m with
  | none => some dt
  | some v => if jsLT dt v then some dt else some v

/-- One step of the running maximum: `if (!maxEnd || dt > maxEnd) maxEnd = dt`. -/
def updMax (m : Option JDate) (dt : JDate) : Option JDate :=
  match m with
  | none => some dt
  | some v => if jsGT dt v then some dt else some v

/-- All parsed date values of one town, flattened across its events
(`for (const ev of events) for (const d of ev.dates || [])`). -/
def townDates (events : List Event) : List JDate :=
  (events.map (fun ev => ev.dates.getD [])).flatten

/-- `toISOString()`: throws a RangeError on an Invalid Date. -/
def toISO : JDate → Except String Int
  | some t => Except.ok t
  | none => Except.error "Invalid time value"

/-- The per-town body of the `Object.keys(groupedEvents).map(...)` callback
(`src/server.js` 835-858): scan all dates for min/max, return `none` (JS
`null`) when no date was seen, otherwise build the record — throwing if the
running min or max is an Invalid Date. -/
def buildRecord (town : String) (events : List Event) : Except String (Option TownRecord) :=
  match (townDates events).foldl updMin none, (townDates events).foldl updMax none with
  | none, _ => Except.ok none
  | _, none => Except.ok none
  | some a, some b =>
    match toISO a, toISO b with
    | Except.error e, _ => Except.error e
    | _, Except.error e => Except.error e
    | Except.ok s, Except.ok e =>
      Except.ok (some { town := town, townSlug := slugifyTown town,
                        startDateISO := s, endDateISO := e,
                        status := Status.LATER, events := events })

/-- The `.map(...)` over all towns followed by `.filter(Boolean)`: errors
propagate from the first throwing town, `null` entries are dropped. -/
def buildRecords : List (String × List Event) → Except String (List TownRecord)
  | [] => Except.ok []
  | (w, evs) :: rest =>
    match buildRecord w evs, buildRecords rest with
    | Except.error e, _ => Except.error e
    | _, Except.error e => Except.error e
    | Except.ok none, Except.ok rs => Except.ok rs
    | Except.ok (some t), Except.ok rs => Except.ok (t :: rs)

/-- Stable insertion of a record into a list sorted by ascending `startDateISO`:
a record is placed after all records with an equal start. -/
def insertByStart (x : TownRecord) : List TownRecord → List TownRecord
  | [] => [x]
  | y :: ys =>
    if x.startDateISO < y.startDateISO then x :: y :: ys
    else y :: insertByStart x ys

/-- `.sort((a, b) => new Date(a.startDateISO) - new Date(b.startDateISO))`:
the unique stable sort by ascending start instant. -/
def sortByStart (l : List TownRecord) : List TownRecord :=
  l.foldl (fun acc x => insertByStart x acc) []

/-- `isSameLocalDay` (`src/server.js` 861-864) under the offset-0 local time
model: the two instants fall in the same calendar day. -/
def sameLocalDay (a b : Int) : Bool :=
  Int.fdiv a msPerDay == Int.fdiv b msPerDay

/-- The status assigned by the first classification pass
(`src/server.js` 866-880) to a record with start `s` and end `e`. -/
def classifyStatus (today soonCutoff s e : Int) : Status :=
  if s ≤ today ∧ today ≤ e then
    if sameLocalDay e today then Status.FINAL_DAY else Status.IN_TOWN_NOW
  else if today < s ∧ s ≤ soonCutoff then Status.COMING_SOON
  else if e < today then Status.PAST
  else Status.LATER

/-- First classification pass applied to one record. -/
def classify (today soonCutoff : Int) (t : TownRecord) : TownRecord :=
  { t with status := classifyStatus today soonCutoff t.startDateISO t.endDateISO }

/-- `t.status === "IN_TOWN_NOW" || t.status === "FINAL_DAY"`. -/
def isCurrent (t : TownRecord) : Bool :=
  t.status == Status.IN_TOWN_NOW || t.status == Status.FINAL_DAY

/-- `Math.max(...inTownNow.map(t => new Date(t.endDateISO).getTime()))`;
only ever applied to a non-empty list. -/
def maxEnds : List TownRecord → Int
  | [] => 0
  | t :: ts => ts.foldl (fun acc u => max acc u.endDateISO) t.endDateISO

/-- `const next = towns.find(p); if (next) next.status = "NEXT_STOP";`:
set the status of the first record satisfying `p` to `NEXT_STOP`. -/
def promoteFirst (p : TownRecord → Bool) : List TownRecord → List TownRecord
  | [] => []
  | t :: ts =>
    if p t then { t with status := Status.NEXT_STOP } :: ts
    else t :: promoteFirst p ts

/-- The second pass (`src/server.js` 882-892): promote the next stop. -/
def promote (today : Int) (ts : List TownRecord) : List TownRecord :=
  match ts.filter isCurrent with
  | [] => promoteFirst (fun t => today < t.startDateISO) ts
  | u :: us => promoteFirst (fun t => maxEnds (u :: us) < t.startDateISO) ts

/-- The records after build, sort and the first classification pass —
the value of `towns` just before the second pass of `buildTownIndex`. -/
def classifiedTowns (today comingSoonDays : Int) (groupedEvents : List (String × List Event)) :
    Except String (List TownRecord) :=
  match buildRecords groupedEvents with
  | Except.error e => Except.error e
  | Except.ok recs =>
    Except.ok ((sortByStart recs).map (classify today (today + comingSoonDays * msPerDay)))

/-- `buildTownIndex(groupedEvents, { comingSoonDays })` (`src/server.js`
829-895), with the wall-clock `startOfTodayLocal()` passed in as `today`. -/
def buildTownIndex (today comingSoonDays : Int) (groupedEvents : List (String × List Event)) :
    Except String (List TownRecord) :=
  match classifiedTowns today comingSoonDays groupedEvents with
  | Except.error e => Except.error e
  | Except.ok ts => Except.ok ((promote today ts).filter (fun t => t.status != Status.PAST))

/-- Records of equal status compared by the spec's status priority
(`FINAL_DAY` < `IN_TOWN_NOW` < `NEXT_STOP`/`COMING_SOON` < `LATER`).
Modelled from the spec's ordering words, for comparison with the code's
actual ordering. -/
def specStatusRank : Status → Nat
  | Status.FINAL_DAY => 0
  | Status.IN_TOWN_NOW => 1
  | Status.NEXT_STOP => 2
  | Status.COMING_SOON => 2
  | Status.LATER => 3
  | Status.PAST => 4

/-- Ascending-start comparison used throughout the ordering lemmas. -/
abbrev startLE (a b : TownRecord) : Prop := a.startDateISO ≤ b.startDateISO

/-- 2024-01-01T00:00:00Z in milliseconds — the "today" of the spec scenarios. -/
def T0 : Int := 1704067200000

/-- The spec scenario input: Oundle with the single instant
2024-01-01T10:00:00Z, Bedford with the single instant 2024-02-01T10:00:00Z. -/
def scenarioInput : List (String × List Event) :=
  [("Oundle", [⟨some [some 1704103200000]⟩]),
   ("Bedford", [⟨some [some 1706781600000]⟩])]

/-- The spec scenario with both instants moved to local midnight:
Oundle 2024-01-01T00:00:00Z, Bedford 2024-02-01T10:00:00Z. -/
def scenarioMidnightInput : List (String × List Event) :=
  [("Oundle", [⟨some [some 1704067200000]⟩]),
   ("Bedford", [⟨some [some 1706781600000]⟩])]

/-- Town A runs 2023-12-01T10:00Z to 2024-01-06T10:00Z, town B runs
2023-12-15T10:00Z to 2024-01-01T12:00Z; on 2024-01-01 A is `IN_TOWN_NOW`
and B is `FINAL_DAY`, yet A starts (and so sorts) first. -/
def interleaveInput : List (String × List Event) :=
  [("A", [⟨some [some 1701424800000, some 1704535200000]⟩]),
   ("B", [⟨some [some 1702634400000, some 1704110400000]⟩])]

/-- Town A starts 2024-01-02T00:00Z (absorbs the `NEXT_STOP` promotion),
town B starts 2024-01-29T10:00:00Z — on day +28 but after midnight. -/
def boundaryAfterInput : List (String × List Event) :=
  [("A", [⟨some [some 1704153600000]⟩]),
   ("B", [⟨some [some 1706522400000]⟩])]

/-- Town A starts 2024-01-02T00:00Z, town B starts exactly at
2024-01-29T00:00:00Z (= today + 28 days), town C at 2024-01-30T00:00:00Z. -/
def boundaryExactInput : List (String × List Event) :=
  [("A", [⟨some [some 1704153600000]⟩]),
   ("B", [⟨some [some 1706486400000]⟩]),
   ("C", [⟨some [some 1706572800000]⟩])]

/-- Towns A and B both start at 2024-01-10T00:00:00Z: a tie on the earliest
eligible start. -/
def tieInput : List (String × List Event) :=
  [("A", [⟨some [some 1704844800000]⟩]),
   ("B", [⟨some [some 1704844800000]⟩])]

/-- A single town holding one past instant (2023-12-01T10:00Z) and one future
instant (2024-01-06T10:00Z) relative to 2024-01-01. -/
def mixedPastInput : List (String × List Event) :=
  [("A", [⟨some [some 1701424800000, some 1704535200000]⟩])]

/-- A town whose first (and only) date string is unparseable. -/
def invalidDateInput : List (String × List Event) :=
  [("X", [⟨some [none]⟩])]

/-- Town "Old" with only the past instant 2023-12-31T00:00Z, town "New" with
the future instant 2024-01-02T00:00Z. -/
def pastTownInput : List (String × List Event) :=
  [("Old", [⟨some [some 1703980800000]⟩]),
   ("New", [⟨some [some 1704153600000]⟩])]

/-- The record `buildTownIndex` emits for "New" in `pastTownInput`. -/
def newRec : TownRecord :=
  { town := "New", townSlug := "new", startDateISO := 1704153600000,
    endDateISO := 1704153600000, status := Status.NEXT_STOP,
    events := [⟨some [some 1704153600000]⟩] }

/-- One town whose only instant is today's midnight. -/
def oneTownInput : List (String × List Event) :=
  [("a", [⟨some [some 1704067200000]⟩])]

/-- The single record `buildTownIndex` emits for `oneTownInput` on 2024-01-01. -/
def oneTownRec : TownRecord :=
  { town := "a", townSlug := "a", startDateISO := 1704067200000,
    endDateISO := 1704067200000, status := Status.FINAL_DAY,
    events := [⟨some [some 1704067200000]⟩] }

/-- Town A in town on 2024-01-01 (single instant at midnight), town B starting
2024-01-05T00:00Z — eligible for promotion past A's end. -/
def promoteInput : List (String × List Event) :=
  [("A", [⟨some [some 1704067200000]⟩]),
   ("B", [⟨some [some 1704412800000]⟩])]

/-- The classified (pre-promotion) records of `promoteInput` on 2024-01-01. -/
def promoteRecA : TownRecord :=
  { town := "A", townSlug := "a", startDateISO := 1704067200000,
    endDateISO := 1704067200000, status := Status.FINAL_DAY,
    events := [⟨some [some 1704067200000]⟩] }

/-- The classified `COMING_SOON` record for town B of `promoteInput`. -/
def promoteRecB : TownRecord :=
  { town := "B", townSlug := "b", startDateISO := 1704412800000,
    endDateISO := 1704412800000, status := Status.COMING_SOON,
    events := [⟨some [some 1704412800000]⟩] }

/-- The classified (pre-promotion) `PAST` record for town "Old" of
`pastTownInput` on 2024-01-01. -/
def oldRec : TownRecord :=
  { town := "Old", townSlug := "old", startDateISO := 1703980800000,
    endDateISO := 1703980800000, status := Status.PAST,
    events := [⟨some [some 1703980800000]⟩] }

/-- The classified (pre-promotion) `COMING_SOON` record for town "New" of
`pastTownInput` on 2024-01-01. -/
def newComingRec : TownRecord :=
  { town := "New", townSlug := "new", startDateISO := 1704153600000,
    endDateISO := 1704153600000, status := Status.COMING_SOON,
    events := [⟨some [some 1704153600000]⟩] }

/-! ### Lemmas about the stable sort by start instant -/

theorem mem_insertByStart {a x : TownRecord} {l : List TownRecord} :
    a ∈ insertByStart x l ↔ a = x ∨ a ∈ l := by
  induction l with
  | nil => simp [insertByStart]
  | cons y ys ih =>
    simp only [insertByStart]
    split
    · simp [List.mem_cons]
    · simp only [List.mem_cons, ih]
      tauto

theorem pairwise_insertByStart {x : TownRecord} {l : List TownRecord}
    (h : l.Pairwise startLE) : (insertByStart x l).Pairwise startLE := by
  induction l with
  | nil => simp [insertByStart]
  | cons y ys ih =>
    rcases List.pairwise_cons.1 h with ⟨hy, hys⟩
    simp only [insertByStart]
    split
    · rename_i hlt
      refine List.pairwise_cons.2 ⟨?_, h⟩
      intro b hb
      rcases List.mem_cons.1 hb with rfl | hb
      · exact le_of_lt hlt
      · exact le_trans (le_of_lt hlt) (hy b hb)
    · rename_i hnlt
      refine List.pairwise_cons.2 ⟨?_, ih hys⟩
      intro b hb
      rcases mem_insertByStart.1 hb with rfl | hb
      · exact le_of_not_lt hnlt
      · exact hy b hb

theorem mem_foldl_insert {a : TownRecord} {l : List TownRecord} : ∀ {acc : List TownRecord},
    a ∈ l.foldl (fun acc x => insertByStart x acc) acc ↔ a ∈ acc ∨ a ∈ l := by
  induction l with
  | nil => intro acc; simp
  | cons y ys ih =>
    intro acc
    simp only [List.foldl_cons, ih, mem_insertByStart, List.mem_cons]
    tauto

theorem mem_sortByStart {a : TownRecord} {l : List TownRecord} :
    a ∈ sortByStart l ↔ a ∈ l := by
  simp [sortByStart, mem_foldl_insert]

theorem pairwise_sortByStart (l : List TownRecord) : (sortByStart l).Pairwise startLE := by
  have main : ∀ (m acc : List TownRecord), acc.Pairwise startLE →
      (m.foldl (fun acc x => insertByStart x acc) acc).Pairwise startLE := by
    intro m
    induction m with
    | nil => intro acc h; simpa using h
    | cons y ys ih => intro acc h; exact ih _ (pairwise_insertByStart h)
  exact main l [] (by simp)

/-! ### Lemmas about the `NEXT_STOP` promotion -/

theorem mem_promoteFirst {p : TownRecord → Bool} {a : TownRecord} {l : List TownRecord}
    (h : a ∈ promoteFirst p l) :
    a ∈ l ∨ ∃ z, z ∈ l ∧ p z = true ∧ a = { z with status := Status.NEXT_STOP } := by
  induction l with
  | nil => simp [promoteFirst] at h
  | cons y ys ih =>
    simp only [promoteFirst] at h
    by_cases hp : p y
    · rw [if_pos hp] at h
      rcases List.mem_cons.1 h with rfl | h
      · exact Or.inr ⟨y, List.mem_cons_self y ys, hp, rfl⟩
      · exact Or.inl (List.mem_cons_of_mem _ h)
    · rw [if_neg hp] at h
      rcases List.mem_cons.1 h with rfl | h
      · exact Or.inl (List.mem_cons_self a ys)
      · rcases ih h with h | ⟨z, hz, hpz, rfl⟩
        · exact Or.inl (List.mem_cons_of_mem _ h)
        · exact Or.inr ⟨z, List.mem_cons_of_mem _ hz, hpz, rfl⟩

theorem promoteFirst_map_start (p : TownRecord → Bool) (l : List TownRecord) :
    (promoteFirst p l).map (fun t => t.startDateISO) = l.map (fun t => t.startDateISO) := by
  induction l with
  | nil => rfl
  | cons y ys ih =>
    simp only [promoteFirst]
    split
    · simp
    · simp [ih]

theorem pairwise_promoteFirst {p : TownRecord → Bool} {l : List TownRecord}
    (h : l.Pairwise startLE) : (promoteFirst p l).Pairwise startLE := by
  have h1 : (l.map (fun t => t.startDateISO)).Pairwise (fun a b : Int => a ≤ b) :=
    List.pairwise_map.2 h
  have h2 : ((promoteFirst p l).map (fun t => t.startDateISO)).Pairwise
      (fun a b : Int => a ≤ b) := by
    rw [promoteFirst_map_start]
    exact h1
  exact (@List.pairwise_map TownRecord Int (fun t => t.startDateISO)
    (fun a b : Int => a ≤ b) (promoteFirst p l)).1 h2

theorem promoteFirst_first {p : TownRecord → Bool} {l : List TownRecord}
    (hs : l.Pairwise startLE) (hex : ∃ z ∈ l, p z = true) :
    ∃ z, z ∈ l ∧ p z = true ∧
      { z with status := Status.NEXT_STOP } ∈ promoteFirst p l ∧
      ∀ w ∈ l, p w = true → z.startDateISO ≤ w.startDateISO := by
  induction l with
  | nil => simp at hex
  | cons y ys ih =>
    rcases List.pairwise_cons.1 hs with ⟨hy, hys⟩
    by_cases hp : p y
    · refine ⟨y, List.mem_cons_self y ys, hp, ?_, ?_⟩
      · simp [promoteFirst, hp]
      · intro w hw hpw
        rcases List.mem_cons.1 hw with rfl | hw
        · exact le_refl _
        · exact hy w hw
    · rcases hex with ⟨z, hz, hpz⟩
      rcases List.mem_cons.1 hz with rfl | hz
      · exact absurd hpz (by simp [hp])
      · rcases ih hys ⟨z, hz, hpz⟩ with ⟨z', hz', hpz', hmem, hmin⟩
        refine ⟨z', List.mem_cons_of_mem _ hz', hpz', ?_, ?_⟩
        · simp only [promoteFirst, if_neg hp]
          exact List.mem_cons_of_mem _ hmem
        · intro w hw hpw
          rcases List.mem_cons.1 hw with rfl | hw
          · exact absurd hpw (by simp [hp])
          · exact hmin w hw hpw

theorem countP_promoteFirst {p : TownRecord → Bool} {l : List TownRecord}
    (h : l.countP (fun t => t.status == Status.NEXT_STOP) = 0) :
    (promoteFirst p l).countP (fun t => t.status == Status.NEXT_STOP) ≤ 1 := by
  induction l with
  | nil => simp [promoteFirst]
  | cons y ys ih =>
    rw [List.countP_cons] at h
    have hys : ys.countP (fun t => t.status == Status.NEXT_STOP) = 0 := by omega
    simp only [promoteFirst]
    split
    · rw [List.countP_cons, hys]
      simp
    · rw [List.countP_cons]
      by_cases hNS : (y.status == Status.NEXT_STOP) = true
      · rw [if_pos hNS] at h
        omega
      · rw [if_neg hNS]
        have := ih hys
        omega

theorem foldl_max_init : ∀ (xs : List TownRecord) (a : Int),
    a ≤ xs.foldl (fun acc u => max acc u.endDateISO) a := by
  intro xs
  induction xs with
  | nil => intro a; exact le_refl a
  | cons y ys ih =>
    intro a
    simp only [List.foldl_cons]
    exact le_trans (le_max_left _ _) (ih (max a y.endDateISO))

theorem foldl_max_mem : ∀ (xs : List TownRecord) (a : Int) (t : TownRecord), t ∈ xs →
    t.endDateISO ≤ xs.foldl (fun acc u => max acc u.endDateISO) a := by
  intro xs
  induction xs with
  | nil => intro a t h; simp at h
  | cons y ys ih =>
    intro a t h
    simp only [List.foldl_cons]
    rcases List.mem_cons.1 h with rfl | h
    · exact le_trans (le_max_right _ _) (foldl_max_init ys (max a t.endDateISO))
    · exact ih _ t h

theorem le_maxEnds {l : List TownRecord} {t : TownRecord} (h : t ∈ l) :
    t.endDateISO ≤ maxEnds l := by
  cases l with
  | nil => simp at h
  | cons y ys =>
    simp only [maxEnds]
    rcases List.mem_cons.1 h with rfl | h
    · exact foldl_max_init ys t.endDateISO
    · exact foldl_max_mem ys y.endDateISO t h

/-! ### Lemmas about the min/max scan over a town's dates -/

theorem jsLT_none_right (d : JDate) : jsLT d none = false := by
  cases d <;> rfl

theorem jsGT_none_right (d : JDate) : jsGT d none = false := by
  cases d <;> rfl

theorem jsLT_none_left (d : JDate) : jsLT none d = false := by
  cases d <;> rfl

theorem jsGT_none_left (d : JDate) : jsGT none d = false := by
  cases d <;> rfl

theorem foldMin_invalid : ∀ ds : List JDate, ds.foldl updMin (some none) = some none := by
  intro ds
  induction ds with
  | nil => rfl
  | cons d ds ih =>
    simp only [List.foldl_cons]
    rw [show updMin (some none) d = some none by simp [updMin, jsLT_none_right]]
    exact ih

theorem foldMax_invalid : ∀ ds : List JDate, ds.foldl updMax (some none) = some none := by
  intro ds
  induction ds with
  | nil => rfl
  | cons d ds ih =>
    simp only [List.foldl_cons]
    rw [show updMax (some none) d = some none by simp [updMax, jsGT_none_right]]
    exact ih

theorem updMin_valid (x : Int) (d : JDate) :
    updMin (some (some x)) d = some d ∨ updMin (some (some x)) d = some (some x) := by
  simp only [updMin]
  split <;> simp

theorem foldMin_stays : ∀ (ds : List JDate) (x : Int),
    ∃ y : Int, ds.foldl updMin (some (some x)) = some (some y) := by
  intro ds
  induction ds with
  | nil => intro x; exact ⟨x, rfl⟩
  | cons d ds ih =>
    intro x
    simp only [List.foldl_cons]
    cases d with
    | none =>
      rw [show updMin (some (some x)) none = some (some x) by
        simp [updMin, jsLT_none_left]]
      exact ih x
    | some u =>
      by_cases hu : u < x
      · rw [show updMin (some (some x)) (some u) = some (some u) by
          simp [updMin, jsLT, hu]]
        exact ih u
      · rw [show updMin (some (some x)) (some u) = some (some x) by
          simp [updMin, jsLT, hu]]
        exact ih x

theorem foldMax_stays : ∀ (ds : List JDate) (x : Int),
    ∃ y : Int, ds.foldl updMax (some (some x)) = some (some y) := by
  intro ds
  induction ds with
  | nil => intro x; exact ⟨x, rfl⟩
  | cons d ds ih =>
    intro x
    simp only [List.foldl_cons]
    cases d with
    | none =>
      rw [show updMax (some (some x)) none = some (some x) by
        simp [updMax, jsGT_none_left]]
      exact ih x
    | some u =>
      by_cases hu : x < u
      · rw [show updMax (some (some x)) (some u) = some (some u) by
          simp [updMax, jsGT, hu]]
        exact ih u
      · rw [show updMax (some (some x)) (some u) = some (some x) by
          simp [updMax, jsGT, hu]]
        exact ih x

theorem foldMin_go : ∀ (ds : List JDate) (x y : Int),
    ds.foldl updMin (some (some x)) = some (some y) →
    (y = x ∨ some y ∈ ds) ∧ y ≤ x ∧ ∀ t : Int, some t ∈ ds → y ≤ t := by
  intro ds
  induction ds with
  | nil =>
    intro x y h
    simp only [List.foldl_nil, Option.some.injEq] at h
    subst h
    exact ⟨Or.inl rfl, le_refl _, by intro t ht; simp at ht⟩
  | cons d ds ih =>
    intro x y h
    simp only [List.foldl_cons] at h
    cases d with
    | none =>
      rw [show updMin (some (some x)) none = some (some x) by
        simp [updMin, jsLT_none_left]] at h
      rcases ih x y h with ⟨hm, hle, hb⟩
      refine ⟨?_, hle, ?_⟩
      · rcases hm with rfl | hm
        · exact Or.inl rfl
        · exact Or.inr (List.mem_cons_of_mem _ hm)
      · intro t ht
        rcases List.mem_cons.1 ht with heq | ht
        · exact absurd heq (by simp)
        · exact hb t ht
    | some u =>
      by_cases hu : u < x
      · rw [show updMin (some (some x)) (some u) = some (some u) by
          simp [updMin, jsLT, hu]] at h
        rcases ih u y h with ⟨hm, hle, hb⟩
        refine ⟨?_, le_trans hle (le_of_lt hu), ?_⟩
        · rcases hm with rfl | hm
          · exact Or.inr (List.mem_cons_self _ _)
          · exact Or.inr (List.mem_cons_of_mem _ hm)
        · intro t ht
          rcases List.mem_cons.1 ht with heq | ht
          · have : t = u := by simpa using heq
            omega
          · exact hb t ht
      · rw [show updMin (some (some x)) (some u) = some (some x) by
          simp [updMin, jsLT, hu]] at h
        rcases ih x y h with ⟨hm, hle, hb⟩
        refine ⟨?_, hle, ?_⟩
        · rcases hm with rfl | hm
          · exact Or.inl rfl
          · exact Or.inr (List.mem_cons_of_mem _ hm)
        · intro t ht
          rcases List.mem_cons.1 ht with heq | ht
          · have : t = u := by simpa using heq
            omega
          · exact hb t ht

theorem foldMax_go : ∀ (ds : List JDate) (x y : Int),
    ds.foldl updMax (some (some x)) = some (some y) →
    (y = x ∨ some y ∈ ds) ∧ x ≤ y ∧ ∀ t : Int, some t ∈ ds → t ≤ y := by
  intro ds
  induction ds with
  | nil =>
    intro x y h
    simp only [List.foldl_nil, Option.some.injEq] at h
    subst h
    exact ⟨Or.inl rfl, le_refl _, by intro t ht; simp at ht⟩
  | cons d ds ih =>
    intro x y h
    simp only [List.foldl_cons] at h
    cases d with
    | none =>
      rw [show updMax (some (some x)) none = some (some x) by
        simp [updMax, jsGT_none_left]] at h
      rcases ih x y h with ⟨hm, hle, hb⟩
      refine ⟨?_, hle, ?_⟩
      · rcases hm with rfl | hm
        · exact Or.inl rfl
        · exact Or.inr (List.mem_cons_of_mem _ hm)
      · intro t ht
        rcases List.mem_cons.1 ht with heq | ht
        · exact absurd heq (by simp)
        · exact hb t ht
    | some u =>
      by_cases hu : x < u
      · rw [show updMax (some (some x)) (some u) = some (some u) by
          simp [updMax, jsGT, hu]] at h
        rcases ih u y h with ⟨hm, hle, hb⟩
        refine ⟨?_, le_trans (le_of_lt hu) hle, ?_⟩
        · rcases hm with rfl | hm
          · exact Or.inr (List.mem_cons_self _ _)
          · exact Or.inr (List.mem_cons_of_mem _ hm)
        · intro t ht
          rcases List.mem_cons.1 ht with heq | ht
          · have : t = u := by simpa using heq
            omega
          · exact hb t ht
      · rw [show updMax (some (some x)) (some u) = some (some x) by
          simp [updMax, jsGT, hu]] at h
        rcases ih x y h with ⟨hm, hle, hb⟩
        refine ⟨?_, hle, ?_⟩
        · rcases hm with rfl | hm
          · exact Or.inl rfl
          · exact Or.inr (List.mem_cons_of_mem _ hm)
        · intro t ht
          rcases List.mem_cons.1 ht with heq | ht
          · have : t = u := by simpa using heq
            omega
          · exact hb t ht

/-! ### Lemmas about `buildRecord` and `buildRecords` -/

theorem buildRecord_ok_some {w : String} {evs : List Event} {r : TownRecord}
    (h : buildRecord w evs = Except.ok (some r)) :
    r.town = w ∧ r.townSlug = slugifyTown w ∧ r.events = evs ∧ r.status = Status.LATER ∧
    some r.startDateISO ∈ townDates evs ∧ some r.endDateISO ∈ townDates evs ∧
    (∀ u : Int, some u ∈ townDates evs → r.startDateISO ≤ u ∧ u ≤ r.endDateISO) := by
  unfold buildRecord at h
  cases hds : townDates evs with
  | nil => rw [hds] at h; simp at h
  | cons d ds =>
    rw [hds] at h
    simp only [List.foldl_cons, updMin, updMax] at h
    cases d with
    | none =>
      rw [foldMin_invalid ds, foldMax_invalid ds] at h
      simp [toISO] at h
    | some u =>
      rcases foldMin_stays ds u with ⟨a, ha⟩
      rcases foldMax_stays ds u with ⟨b, hb⟩
      rw [ha, hb] at h
      simp only [toISO, Option.some.injEq, Except.ok.injEq] at h
      rcases foldMin_go ds u a ha with ⟨hma, hlea, hba⟩
      rcases foldMax_go ds u b hb with ⟨hmb, hleb, hbb⟩
      subst h
      refine ⟨rfl, rfl, rfl, rfl, ?_, ?_, ?_⟩
      · rcases hma with rfl | hma
        · exact List.mem_cons_self _ _
        · exact List.mem_cons_of_mem _ hma
      · rcases hmb with rfl | hmb
        · exact List.mem_cons_self _ _
        · exact List.mem_cons_of_mem _ hmb
      · intro v hv
        rcases List.mem_cons.1 hv with heq | hv
        · have : v = u := by simpa using heq
          subst this
          exact ⟨hlea, hleb⟩
        · exact ⟨hba v hv, hbb v hv⟩

theorem buildRecord_ok_of_valid (w : String) {evs : List Event}
    (h : ∀ d ∈ townDates evs, d ≠ none) :
    ∃ r : Option TownRecord, buildRecord w evs = Except.ok r := by
  unfold buildRecord
  cases hds : townDates evs with
  | nil => exact ⟨none, rfl⟩
  | cons d ds =>
    cases d with
    | none =>
      exact absurd rfl (h none (hds ▸ List.mem_cons_self _ _))
    | some u =>
      simp only [List.foldl_cons, updMin, updMax]
      rcases foldMin_stays ds u with ⟨a, ha⟩
      rcases foldMax_stays ds u with ⟨b, hb⟩
      rw [ha, hb]
      exact ⟨_, rfl⟩

theorem buildRecords_mem : ∀ {g : List (String × List Event)} {rs : List TownRecord},
    buildRecords g = Except.ok rs →
    ∀ r ∈ rs, ∃ p ∈ g, buildRecord p.1 p.2 = Except.ok (some r) := by
  intro g
  induction g with
  | nil =>
    intro rs h r hr
    simp only [buildRecords] at h
    injection h with h
    subst h
    simp at hr
  | cons q rest ih =>
    intro rs h r hr
    obtain ⟨w, evs⟩ := q
    simp only [buildRecords] at h
    cases hbr : buildRecord w evs with
    | error e => rw [hbr] at h; simp at h
    | ok ro =>
      rw [hbr] at h
      cases hrest : buildRecords rest with
      | error e =>
        rw [hrest] at h
        cases ro <;> simp at h
      | ok rs2 =>
        rw [hrest] at h
        cases ro with
        | none =>
          injection h with h
          subst h
          rcases ih hrest r hr with ⟨p2, hp2, hp3⟩
          exact ⟨p2, List.mem_cons_of_mem _ hp2, hp3⟩
        | some t =>
          injection h with h
          subst h
          rcases List.mem_cons.1 hr with rfl | hr
          · exact ⟨(w, evs), List.mem_cons_self _ _, hbr⟩
          · rcases ih hrest r hr with ⟨p2, hp2, hp3⟩
            exact ⟨p2, List.mem_cons_of_mem _ hp2, hp3⟩

theorem buildRecords_ok_of_valid : ∀ {g : List (String × List Event)},
    (∀ p ∈ g, ∀ d ∈ townDates p.2, d ≠ none) →
    ∃ rs : List TownRecord, buildRecords g = Except.ok rs := by
  intro g
  induction g with
  | nil => intro h; exact ⟨[], rfl⟩
  | cons q rest ih =>
    intro h
    obtain ⟨w, evs⟩ := q
    rcases buildRecord_ok_of_valid w (h (w, evs) (List.mem_cons_self _ _)) with ⟨ro, hro⟩
    rcases ih (fun p hp => h p (List.mem_cons_of_mem _ hp)) with ⟨rs2, hrs2⟩
    simp only [buildRecords]
    rw [hro, hrs2]
    cases ro with
    | none => exact ⟨rs2, rfl⟩
    | some t => exact ⟨t :: rs2, rfl⟩


/-! ### Lemmas about the first classification pass -/

theorem cs_ne_next (t c s e : Int) : classifyStatus t c s e ≠ Status.NEXT_STOP := by
  unfold classifyStatus
  split_ifs <;> simp

theorem cs_final {t c s e : Int} (h1 : s ≤ t) (h2 : t ≤ e)
    (h3 : sameLocalDay e t = true) : classifyStatus t c s e = Status.FINAL_DAY := by
  unfold classifyStatus
  rw [if_pos ⟨h1, h2⟩, if_pos h3]

theorem cs_coming {t c s e : Int} (h1 : t < s) (h2 : s ≤ c) :
    classifyStatus t c s e = Status.COMING_SOON := by
  unfold classifyStatus
  rw [if_neg (by omega : ¬(s ≤ t ∧ t ≤ e)), if_pos ⟨h1, h2⟩]

theorem cs_later {t c s e : Int} (hse : s ≤ e) (htc : t ≤ c) (h : c < s) :
    classifyStatus t c s e = Status.LATER := by
  unfold classifyStatus
  rw [if_neg (by omega : ¬(s ≤ t ∧ t ≤ e)),
    if_neg (by omega : ¬(t < s ∧ s ≤ c)), if_neg (by omega : ¬e < t)]

theorem cs_current_bounds {t c s e : Int}
    (h : classifyStatus t c s e = Status.IN_TOWN_NOW ∨
      classifyStatus t c s e = Status.FINAL_DAY) :
    s ≤ t ∧ t ≤ e := by
  unfold classifyStatus at h
  split_ifs at h with h1 h2 h3 h4
  · exact h1
  · exact h1
  · rcases h with h | h <;> simp at h
  · rcases h with h | h <;> simp at h
  · rcases h with h | h <;> simp at h

theorem cs_current_of_le {t c s e : Int}
    (hnp : classifyStatus t c s e ≠ Status.PAST) (hst : s ≤ t) :
    classifyStatus t c s e = Status.IN_TOWN_NOW ∨
      classifyStatus t c s e = Status.FINAL_DAY := by
  unfold classifyStatus at *
  split_ifs at * with h1 h2 h3 h4
  · exact Or.inr rfl
  · exact Or.inl rfl
  · exact absurd hst (by omega)
  · exact absurd rfl hnp
  · exact absurd hst (by omega)

theorem cs_end_ge {t c s e : Int} (hse : s ≤ e)
    (hnp : classifyStatus t c s e ≠ Status.PAST) : t ≤ e := by
  unfold classifyStatus at hnp
  split_ifs at hnp with h1 h2 h3 h4
  · omega
  · omega
  · omega
  · exact absurd rfl hnp
  · omega

theorem cs_future (c : Int) {t s e b : Int} (hse : s ≤ e) (htb : t ≤ b) (hbs : b < s) :
    classifyStatus t c s e = Status.COMING_SOON ∨
      classifyStatus t c s e = Status.LATER := by
  unfold classifyStatus
  split_ifs with h1 h2 h3 h4
  · exact absurd hbs (by omega)
  · exact absurd hbs (by omega)
  · exact Or.inl rfl
  · exact absurd hbs (by omega)
  · exact Or.inr rfl

/-! ### Lemmas about the assembled pipeline -/

theorem classifiedTowns_ok {today c : Int} {g : List (String × List Event)}
    {ts : List TownRecord} (h : classifiedTowns today c g = Except.ok ts) :
    ∃ recs, buildRecords g = Except.ok recs ∧
      ts = (sortByStart recs).map (classify today (today + c * msPerDay)) := by
  unfold classifiedTowns at h
  cases hbr : buildRecords g with
  | error e => rw [hbr] at h; simp at h
  | ok recs =>
    rw [hbr] at h
    injection h with h
    exact ⟨recs, rfl, h.symm⟩

theorem classified_elem {today c : Int} {g : List (String × List Event)}
    {ts : List TownRecord} (h : classifiedTowns today c g = Except.ok ts) :
    ∀ x ∈ ts,
      x.startDateISO ≤ x.endDateISO ∧
      x.status = classifyStatus today (today + c * msPerDay) x.startDateISO x.endDateISO ∧
      some x.startDateISO ∈ townDates x.events ∧
      some x.endDateISO ∈ townDates x.events ∧
      (∀ u : Int, some u ∈ townDates x.events → x.startDateISO ≤ u ∧ u ≤ x.endDateISO) ∧
      ∃ p ∈ g, p.1 = x.town ∧ p.2 = x.events := by
  intro x hx
  rcases classifiedTowns_ok h with ⟨recs, hbr, rfl⟩
  rcases List.mem_map.1 hx with ⟨r, hr, rfl⟩
  have hr2 : r ∈ recs := mem_sortByStart.1 hr
  rcases buildRecords_mem hbr r hr2 with ⟨p, hp, hpr⟩
  rcases buildRecord_ok_some hpr with ⟨htown, hslug, hevents, hstatus, hmin, hmax, hbound⟩
  have hse : r.startDateISO ≤ r.endDateISO := (hbound _ (hevents ▸ hmax)).1
  refine ⟨hse, rfl, ?_, ?_, ?_, ⟨p, hp, htown.symm, hevents.symm⟩⟩
  · exact hevents ▸ hmin
  · exact hevents ▸ hmax
  · intro u hu
    exact hbound u (hevents ▸ hu)

theorem classified_sorted {today c : Int} {g : List (String × List Event)}
    {ts : List TownRecord} (h : classifiedTowns today c g = Except.ok ts) :
    ts.Pairwise startLE := by
  rcases classifiedTowns_ok h with ⟨recs, hbr, rfl⟩
  exact (@List.pairwise_map TownRecord TownRecord
    (classify today (today + c * msPerDay)) startLE (sortByStart recs)).2
    (pairwise_sortByStart recs)

theorem promote_eq (today : Int) (ts : List TownRecord) :
    (ts.filter isCurrent = [] ∧
      promote today ts = promoteFirst (fun t => today < t.startDateISO) ts) ∨
    (ts.filter isCurrent ≠ [] ∧
      promote today ts = promoteFirst
        (fun t => maxEnds (ts.filter isCurrent) < t.startDateISO) ts) := by
  unfold promote
  cases hf : ts.filter isCurrent with
  | nil => exact Or.inl ⟨rfl, rfl⟩
  | cons u us => exact Or.inr ⟨by simp, rfl⟩

theorem promote_elem {today : Int} {ts : List TownRecord}
    (hcur : ∀ u ∈ ts, isCurrent u = true → today ≤ u.endDateISO) :
    ∀ x ∈ promote today ts,
      x ∈ ts ∨ ∃ z, z ∈ ts ∧ x = { z with status := Status.NEXT_STOP } ∧
        today < z.startDateISO := by
  intro x hx
  rcases promote_eq today ts with ⟨hf, heq⟩ | ⟨hf, heq⟩
  · rw [heq] at hx
    rcases mem_promoteFirst hx with h | ⟨z, hz, hpz, rfl⟩
    · exact Or.inl h
    · exact Or.inr ⟨z, hz, rfl, by simpa using hpz⟩
  · rw [heq] at hx
    rcases mem_promoteFirst hx with h | ⟨z, hz, hpz, rfl⟩
    · exact Or.inl h
    · refine Or.inr ⟨z, hz, rfl, ?_⟩
      have hb : maxEnds (ts.filter isCurrent) < z.startDateISO := by simpa using hpz
      cases hflt : ts.filter isCurrent with
      | nil => exact absurd hflt hf
      | cons u us =>
        have hu : u ∈ ts.filter isCurrent := by
          rw [hflt]; exact List.mem_cons_self _ _
        have hu2 := List.mem_filter.1 hu
        have h1 : today ≤ u.endDateISO := hcur u hu2.1 hu2.2
        have h2 : u.endDateISO ≤ maxEnds (ts.filter isCurrent) := le_maxEnds hu
        omega

theorem promote_pairwise {today : Int} {ts : List TownRecord}
    (h : ts.Pairwise startLE) : (promote today ts).Pairwise startLE := by
  rcases promote_eq today ts with ⟨_, heq⟩ | ⟨_, heq⟩ <;> rw [heq] <;>
    exact pairwise_promoteFirst h

theorem buildTownIndex_ok {today c : Int} {g : List (String × List Event)}
    {l : List TownRecord} (h : buildTownIndex today c g = Except.ok l) :
    ∃ ts, classifiedTowns today c g = Except.ok ts ∧
      l = (promote today ts).filter (fun t => t.status != Status.PAST) := by
  unfold buildTownIndex at h
  cases hct : classifiedTowns today c g with
  | error e => rw [hct] at h; simp at h
  | ok ts =>
    rw [hct] at h
    injection h with h
    exact ⟨ts, rfl, h.symm⟩

theorem classified_current_end {today c : Int} {g : List (String × List Event)}
    {ts : List TownRecord} (hct : classifiedTowns today c g = Except.ok ts) :
    ∀ u ∈ ts, isCurrent u = true → today ≤ u.endDateISO := by
  intro u hu hcu
  rcases classified_elem hct u hu with ⟨hse, hst, _⟩
  have hdis : u.status = Status.IN_TOWN_NOW ∨ u.status = Status.FINAL_DAY := by
    simpa [isCurrent] using hcu
  rw [hst] at hdis
  exact (cs_current_bounds hdis).2

theorem output_sorted {today c : Int} {g : List (String × List Event)}
    {l : List TownRecord} (h : buildTownIndex today c g = Except.ok l) :
    l.Pairwise startLE := by
  rcases buildTownIndex_ok h with ⟨ts, hct, rfl⟩
  exact (promote_pairwise (classified_sorted hct)).filter _

theorem output_elem {today c : Int} {g : List (String × List Event)}
    {l : List TownRecord} (h : buildTownIndex today c g = Except.ok l) :
    ∀ x ∈ l,
      x.startDateISO ≤ x.endDateISO ∧
      x.status ≠ Status.PAST ∧
      today ≤ x.endDateISO ∧
      some x.startDateISO ∈ townDates x.events ∧
      some x.endDateISO ∈ townDates x.events ∧
      (∀ u : Int, some u ∈ townDates x.events → x.startDateISO ≤ u ∧ u ≤ x.endDateISO) ∧
      (∃ p ∈ g, p.1 = x.town ∧ p.2 = x.events) ∧
      (isCurrent x = true ↔ x.startDateISO ≤ today) := by
  intro x hx
  rcases buildTownIndex_ok h with ⟨ts, hct, rfl⟩
  have hfm := List.mem_filter.1 hx
  have hnp : x.status ≠ Status.PAST := by simpa using hfm.2
  rcases promote_elem (classified_current_end hct) x hfm.1 with hx2 | ⟨z, hz, rfl, hzs⟩
  · rcases classified_elem hct x hx2 with ⟨hse, hst, hm1, hm2, hb, horig⟩
    have hnp2 : classifyStatus today (today + c * msPerDay)
        x.startDateISO x.endDateISO ≠ Status.PAST := hst ▸ hnp
    refine ⟨hse, hnp, cs_end_ge hse hnp2, hm1, hm2, hb, horig, ?_, ?_⟩
    · intro hic
      have hdis : x.status = Status.IN_TOWN_NOW ∨ x.status = Status.FINAL_DAY := by
        simpa [isCurrent] using hic
      rw [hst] at hdis
      exact (cs_current_bounds hdis).1
    · intro hle
      have hdis := cs_current_of_le hnp2 hle
      rw [← hst] at hdis
      rcases hdis with hd | hd <;> simp [isCurrent, hd]
  · rcases classified_elem hct z hz with ⟨hse, hst, hm1, hm2, hb, horig⟩
    refine ⟨hse, by simp, by show today ≤ z.endDateISO; omega, hm1, hm2, hb, horig, ?_, ?_⟩
    · intro hic
      simp [isCurrent] at hic
    · intro hle
      exact absurd (show z.startDateISO ≤ today from hle) (by omega)

theorem classified_today_le_maxEnds {today c : Int} {g : List (String × List Event)}
    {ts : List TownRecord} (hct : classifiedTowns today c g = Except.ok ts)
    (hne : ts.filter isCurrent ≠ []) : today ≤ maxEnds (ts.filter isCurrent) := by
  cases hflt : ts.filter isCurrent with
  | nil => exact absurd hflt hne
  | cons u us =>
    have hu : u ∈ ts.filter isCurrent := by
      rw [hflt]; exact List.mem_cons_self _ _
    have hu2 := List.mem_filter.1 hu
    have h1 := classified_current_end hct u hu2.1 hu2.2
    have h2 : u.endDateISO ≤ maxEnds (u :: us) := by
      rw [← hflt]; exact le_maxEnds hu
    omega

/-! ### Lemmas about `slugifyTown` -/

theorem mem_squashDashes {c : Char} : ∀ {l : List Char}, c ∈ squashDashes l → c ∈ l := by
  intro l
  induction l with
  | nil => intro h; simp [squashDashes] at h
  | cons d ds ih =>
    intro h
    simp only [squashDashes] at h
    split at h
    · exact List.mem_cons_of_mem _ (ih h)
    · rcases List.mem_cons.1 h with rfl | h
      · exact List.mem_cons_self _ _
      · exact List.mem_cons_of_mem _ (ih h)

theorem head_dropWhile_all (q : Char → Bool) :
    ∀ l : List Char, (l.dropWhile q).head?.all (fun c => !(q c)) = true := by
  intro l
  induction l with
  | nil => rfl
  | cons d ds ih =>
    simp only [List.dropWhile_cons]
    split
    · exact ih
    · rename_i hq
      simp [hq]

theorem getLast?_dropWhile (q : Char → Bool) :
    ∀ l : List Char, l.dropWhile q ≠ [] → (l.dropWhile q).getLast? = l.getLast? := by
  intro l
  induction l with
  | nil => intro h; exact absurd rfl h
  | cons d ds ih =>
    intro h
    simp only [List.dropWhile_cons] at h ⊢
    split at h
    · rename_i hq
      rw [if_pos hq]
      have hds : ds ≠ [] := by
        intro he
        subst he
        exact h rfl
      cases ds with
      | nil => exact absurd rfl hds
      | cons e es =>
        rw [List.getLast?_cons_cons]
        exact ih h
    · rename_i hq
      rw [if_neg hq]

theorem strip_ends_ok (q : Char → Bool) (A : List Char) :
    ((A.dropWhile q).reverse.dropWhile q).reverse.head?.all (fun c => !(q c)) = true ∧
    ((A.dropWhile q).reverse.dropWhile q).reverse.getLast?.all (fun c => !(q c)) = true := by
  constructor
  · rw [List.head?_reverse]
    by_cases hBe : (A.dropWhile q).reverse.dropWhile q = []
    · rw [hBe]; rfl
    · rw [getLast?_dropWhile q _ hBe, List.getLast?_reverse]
      exact head_dropWhile_all q _
  · rw [List.getLast?_reverse]
    exact head_dropWhile_all q _

theorem slug_repr (s : String) : (slugifyTown s).toList =
    (((squashDashes (((((trimChars s.toList).map Char.toLower).map
      (fun c => if c = '&' then ['a', 'n', 'd'] else [c])).flatten).map
      (fun c => if isSlugChar c then c else '-'))).dropWhile
        (fun c => c == '-')).reverse.dropWhile (fun c => c == '-')).reverse := rfl

theorem slug_chars {s : String} {c : Char} (h : c ∈ (slugifyTown s).toList) :
    isSlugChar c = true ∨ c = '-' := by
  rw [slug_repr] at h
  rw [List.mem_reverse] at h
  have h1 := (List.dropWhile_sublist _).subset h
  rw [List.mem_reverse] at h1
  have h2 := (List.dropWhile_sublist _).subset h1
  have h3 := mem_squashDashes h2
  rcases List.mem_map.1 h3 with ⟨d, _, rfl⟩
  by_cases hd : isSlugChar d = true
  · rw [if_pos hd]; exact Or.inl hd
  · rw [if_neg hd]; exact Or.inr rfl

theorem slug_ends (s : String) :
    (slugifyTown s).toList.head?.all (fun c => !(c == '-')) = true ∧
    (slugifyTown s).toList.getLast?.all (fun c => !(c == '-')) = true := by
  rw [slug_repr]
  exact strip_ends_ok (fun c => c == '-') _

/-! ### The claims -/

/-- C1, counterexample: on the spec scenario (Oundle's only instant
2024-01-01T10:00Z, Bedford's 2024-02-01T10:00Z, today 2024-01-01) the code
classifies Oundle `NEXT_STOP` — not `FINAL_DAY` as the claim states — because
the in-town test compares the 10:00 start instant against local midnight. -/
theorem c1_counterexample :
    (buildTownIndex T0 28 scenarioInput).map
        (fun l => l.map (fun t => (t.town, t.status)))
      = Except.ok [("Oundle", Status.NEXT_STOP), ("Bedford", Status.LATER)] ∧
    Status.NEXT_STOP ≠ Status.FINAL_DAY :=
  ⟨rfl, by simp⟩

/-- C1 (amended): `FINAL_DAY` requires the town's start instant to be at or
before local midnight of today: whenever `start ≤ today ≤ end` and `end` falls
on today's calendar day the first pass yields `FINAL_DAY`; with the scenario's
instants moved to midnight, Oundle is `FINAL_DAY` and Bedford `NEXT_STOP`. -/
theorem c1_amended :
    (∀ t c s e : Int, s ≤ t → t ≤ e → sameLocalDay e t = true →
      classifyStatus t c s e = Status.FINAL_DAY) ∧
    (buildTownIndex T0 28 scenarioMidnightInput).map
        (fun l => l.map (fun t => (t.town, t.status)))
      = Except.ok [("Oundle", Status.FINAL_DAY), ("Bedford", Status.NEXT_STOP)] :=
  ⟨fun _ _ _ _ h1 h2 h3 => cs_final h1 h2 h3, rfl⟩

/-- C1, witness for the amended theorem at a concrete input. -/
theorem c1_amended_witness : classifyStatus 0 28 0 0 = Status.FINAL_DAY :=
  c1_amended.1 0 28 0 0 (by decide) (by decide) (by decide)

/-- C2, counterexample: on `interleaveInput` the output is
`[IN_TOWN_NOW, FINAL_DAY]`, so the output is not sorted by the spec's status
priority (`FINAL_DAY` before `IN_TOWN_NOW`). -/
theorem c2_counterexample :
    (buildTownIndex T0 28 interleaveInput).map
        (fun l => l.map (fun t => specStatusRank t.status))
      = Except.ok [1, 0] ∧
    ¬ List.Pairwise (fun a b : Nat => a ≤ b) [1, 0] :=
  ⟨rfl, by decide⟩

/-- C2 (amended): the output is sorted by ascending `startDateISO` only; as a
consequence every `FINAL_DAY`/`IN_TOWN_NOW` record precedes every other
record (those start strictly after today), but `FINAL_DAY` and `IN_TOWN_NOW`
may interleave and `NEXT_STOP` may follow `COMING_SOON`/`LATER` records. -/
theorem c2_amended :
    ∀ (today c : Int) (g : List (String × List Event)) (l : List TownRecord),
      buildTownIndex today c g = Except.ok l →
      List.Pairwise (fun a b => a.startDateISO ≤ b.startDateISO) l ∧
      List.Pairwise (fun a b => isCurrent b = true → isCurrent a = true) l := by
  intro today c g l h
  have hs := output_sorted h
  refine ⟨hs, ?_⟩
  refine List.Pairwise.imp_of_mem ?_ hs
  intro a b ha hb hab hcb
  have hia := (output_elem h a ha).2.2.2.2.2.2.2
  have hib := (output_elem h b hb).2.2.2.2.2.2.2
  exact hia.2 (le_trans hab (hib.1 hcb))

/-- C2, witness for the amended theorem at a concrete input. -/
theorem c2_amended_witness :
    List.Pairwise (fun a b => a.startDateISO ≤ b.startDateISO) [oneTownRec] :=
  (c2_amended T0 28 oneTownInput [oneTownRec] (by rfl)).1

/-- C3, counterexample: a town whose earliest future instant is
2024-01-29T10:00Z — on calendar day today + 28 — is classified `LATER`, not
`COMING_SOON`: the window is inclusive only at the midnight instant
today + 28 days. (Town A absorbs the `NEXT_STOP` promotion.) -/
theorem c3_counterexample :
    (buildTownIndex T0 28 boundaryAfterInput).map
        (fun l => l.map (fun t => (t.town, t.status)))
      = Except.ok [("A", Status.NEXT_STOP), ("B", Status.LATER)] ∧
    Status.LATER ≠ Status.COMING_SOON :=
  ⟨rfl, by simp⟩

/-- C3 (amended): the coming-soon window is inclusive at the exact instant
`today + comingSoonDays` days (local midnight of 2024-01-29): a start at or
before that instant (and after today) is `COMING_SOON`, a start strictly
after it is `LATER`; concretely B (2024-01-29T00:00Z) is `COMING_SOON` and
C (2024-01-30T00:00Z) is `LATER`. -/
theorem c3_amended :
    (∀ t cd s e : Int, t < s → s ≤ t + cd * msPerDay →
      classifyStatus t (t + cd * msPerDay) s e = Status.COMING_SOON) ∧
    (∀ t cd s e : Int, 0 ≤ cd → s ≤ e → t + cd * msPerDay < s →
      classifyStatus t (t + cd * msPerDay) s e = Status.LATER) ∧
    (buildTownIndex T0 28 boundaryExactInput).map
        (fun l => l.map (fun t => (t.town, t.status)))
      = Except.ok [("A", Status.NEXT_STOP), ("B", Status.COMING_SOON),
          ("C", Status.LATER)] := by
  refine ⟨?_, ?_, rfl⟩
  · intro t cd s e h1 h2
    exact cs_coming h1 h2
  · intro t cd s e hcd hse h
    refine cs_later hse ?_ h
    have hm : (0 : Int) ≤ cd * msPerDay :=
      mul_nonneg hcd (by norm_num [msPerDay])
    omega

/-- C3, witness for the amended theorem at a concrete input. -/
theorem c3_amended_witness :
    classifyStatus 0 (0 + 28 * msPerDay) 5 5 = Status.COMING_SOON :=
  c3_amended.1 0 28 5 5 (by decide) (by decide)

/-- C4: second pass of `buildTownIndex`. If some town is `IN_TOWN_NOW` or
`FINAL_DAY` and some town starts strictly after the latest end among those
in-town towns, then the earliest-starting such town — whose independent
classification was `COMING_SOON` or `LATER` — appears in `promote`'s output
with status `NEXT_STOP`; if no town is in town, the same holds with the bound
"strictly after today". -/
theorem c4_next_stop_promotion :
    ∀ (today c : Int) (g : List (String × List Event)) (ts : List TownRecord),
      classifiedTowns today c g = Except.ok ts →
      (ts.filter isCurrent ≠ [] →
        (∃ u ∈ ts, maxEnds (ts.filter isCurrent) < u.startDateISO) →
        ∃ z, z ∈ ts ∧
          (z.status = Status.COMING_SOON ∨ z.status = Status.LATER) ∧
          maxEnds (ts.filter isCurrent) < z.startDateISO ∧
          (∀ w ∈ ts, maxEnds (ts.filter isCurrent) < w.startDateISO →
            z.startDateISO ≤ w.startDateISO) ∧
          { z with status := Status.NEXT_STOP } ∈ promote today ts) ∧
      (ts.filter isCurrent = [] →
        (∃ u ∈ ts, today < u.startDateISO) →
        ∃ z, z ∈ ts ∧
          (z.status = Status.COMING_SOON ∨ z.status = Status.LATER) ∧
          today < z.startDateISO ∧
          (∀ w ∈ ts, today < w.startDateISO → z.startDateISO ≤ w.startDateISO) ∧
          { z with status := Status.NEXT_STOP } ∈ promote today ts) := by
  intro today c g ts hct
  have hs := classified_sorted hct
  constructor
  · intro hne ⟨u, hu, hub⟩
    rcases promote_eq today ts with ⟨hf, _⟩ | ⟨_, heq⟩
    · exact absurd hf hne
    · rcases @promoteFirst_first
        (fun t => decide (maxEnds (ts.filter isCurrent) < t.startDateISO)) ts hs
        ⟨u, hu, by simpa using hub⟩ with ⟨z, hz, hpz, hmem, hmin⟩
      have hpzP : maxEnds (ts.filter isCurrent) < z.startDateISO := by
        simpa using hpz
      rcases classified_elem hct z hz with ⟨hse, hst, _⟩
      have hmx := classified_today_le_maxEnds hct hne
      have hstat := cs_future (today + c * msPerDay) hse hmx hpzP
      rw [← hst] at hstat
      refine ⟨z, hz, hstat, hpzP, ?_, ?_⟩
      · intro w hw hwb
        exact hmin w hw (by simpa using hwb)
      · rw [heq]
        exact hmem
  · intro hf ⟨u, hu, hub⟩
    rcases promote_eq today ts with ⟨_, heq⟩ | ⟨hne, _⟩
    · rcases @promoteFirst_first
        (fun t => decide (today < t.startDateISO)) ts hs
        ⟨u, hu, by simpa using hub⟩ with ⟨z, hz, hpz, hmem, hmin⟩
      have hpzP : today < z.startDateISO := by simpa using hpz
      rcases classified_elem hct z hz with ⟨hse, hst, _⟩
      have hstat := cs_future (today + c * msPerDay) hse (le_refl today) hpzP
      rw [← hst] at hstat
      refine ⟨z, hz, hstat, hpzP, ?_, ?_⟩
      · intro w hw hwb
        exact hmin w hw (by simpa using hwb)
      · rw [heq]
        exact hmem
    · exact absurd hf hne

/-- C4, witness at a concrete input: with A in town (`FINAL_DAY`, ending
2024-01-01T00:00Z) and B starting 2024-01-05T00:00Z, B is promoted. -/
theorem c4_witness :
    ∃ z, z ∈ [promoteRecA, promoteRecB] ∧
      (z.status = Status.COMING_SOON ∨ z.status = Status.LATER) ∧
      maxEnds ([promoteRecA, promoteRecB].filter isCurrent) < z.startDateISO ∧
      (∀ w ∈ [promoteRecA, promoteRecB],
        maxEnds ([promoteRecA, promoteRecB].filter isCurrent) < w.startDateISO →
        z.startDateISO ≤ w.startDateISO) ∧
      { z with status := Status.NEXT_STOP } ∈ promote T0 [promoteRecA, promoteRecB] :=
  (c4_next_stop_promotion T0 28 promoteInput [promoteRecA, promoteRecB] (by rfl)).1
    (by decide) ⟨promoteRecB, by decide, by decide⟩

/-- C5: at most one record of the output of `buildTownIndex` holds status
`NEXT_STOP`, and when two towns tie on the earliest eligible start the one
first in the input's iteration order (A) is promoted. -/
theorem c5_single_next_stop :
    (∀ (today c : Int) (g : List (String × List Event)) (l : List TownRecord),
      buildTownIndex today c g = Except.ok l →
      l.countP (fun t => t.status == Status.NEXT_STOP) ≤ 1) ∧
    (buildTownIndex T0 28 tieInput).map
        (fun l => l.map (fun t => (t.town, t.status)))
      = Except.ok [("A", Status.NEXT_STOP), ("B", Status.COMING_SOON)] := by
  refine ⟨?_, rfl⟩
  intro today c g l h
  rcases buildTownIndex_ok h with ⟨ts, hct, rfl⟩
  have h0 : ts.countP (fun t => t.status == Status.NEXT_STOP) = 0 := by
    rw [List.countP_eq_zero]
    intro a ha
    have hst := (classified_elem hct a ha).2.1
    simp only [beq_iff_eq]
    rw [hst]
    exact cs_ne_next _ _ _ _
  have h1 : (promote today ts).countP (fun t => t.status == Status.NEXT_STOP) ≤ 1 := by
    rcases promote_eq today ts with ⟨_, heq⟩ | ⟨_, heq⟩ <;> rw [heq] <;>
      exact countP_promoteFirst h0
  exact le_trans (List.Sublist.countP_le _ (List.filter_sublist _)) h1

/-- C5, witness for the universal part at a concrete input. -/
theorem c5_witness :
    List.countP (fun t => t.status == Status.NEXT_STOP) [oneTownRec] ≤ 1 :=
  c5_single_next_stop.1 T0 28 oneTownInput [oneTownRec] (by rfl)

/-- C6: a town all of whose parsed instants are strictly before today
contributes no output record; no emitted record has status `PAST`, and every
emitted record has a future date (`endDateISO` is one of its parsed instants
and is not before today). -/
theorem c6_past_exclusion :
    ∀ (today c : Int) (g : List (String × List Event)) (l : List TownRecord),
      buildTownIndex today c g = Except.ok l →
      (∀ w : String,
        (∀ p ∈ g, p.1 = w → ∀ d ∈ townDates p.2, jsLT d (some today) = true) →
        ∀ r ∈ l, r.town ≠ w) ∧
      (∀ r ∈ l, r.status ≠ Status.PAST ∧ today ≤ r.endDateISO ∧
        some r.endDateISO ∈ townDates r.events) := by
  intro today c g l h
  constructor
  · intro w hw r hr hrw
    rcases output_elem h r hr with ⟨_, _, hte, _, hm2, _, ⟨p, hp, hpt, hpe⟩, _⟩
    have hd : some r.endDateISO ∈ townDates p.2 := by rw [hpe]; exact hm2
    have hlt := hw p hp (by rw [hpt, hrw]) (some r.endDateISO) hd
    simp only [jsLT, decide_eq_true_eq] at hlt
    omega
  · intro r hr
    rcases output_elem h r hr with ⟨_, hnp, hte, _, hm2, _, _, _⟩
    exact ⟨hnp, hte, hm2⟩

/-- C6, witness at a concrete input: on `pastTownInput` (all-past town "Old",
future town "New") the emitted record for "New" is not `PAST` and carries a
future date. -/
theorem c6_witness :
    newRec.status ≠ Status.PAST ∧ T0 ≤ newRec.endDateISO ∧
      some newRec.endDateISO ∈ townDates newRec.events :=
  (c6_past_exclusion T0 28 pastTownInput [newRec] (by rfl)).2 newRec
    (List.mem_cons_self _ _)

/-- C7, counterexample: with one past instant (2023-12-01T10:00Z) and one
future instant (2024-01-06T10:00Z), the emitted `startDateISO` is the past
instant — strictly before today — so it is not the minimum of the town's
future instants (all of which are ≥ today). -/
theorem c7_counterexample :
    (buildTownIndex T0 28 mixedPastInput).map
        (fun l => l.map (fun t => (t.town, t.status, t.startDateISO)))
      = Except.ok [("A", Status.IN_TOWN_NOW, 1701424800000)] ∧
    (1701424800000 : Int) < T0 :=
  ⟨rfl, by decide⟩

/-- C7 (amended): for every emitted record, `startDateISO ≤ endDateISO`, and
the two fields are the minimum and maximum of ALL the town's parseable
instants — past instants included — not of the future instants only. -/
theorem c7_amended :
    ∀ (today c : Int) (g : List (String × List Event)) (l : List TownRecord),
      buildTownIndex today c g = Except.ok l →
      ∀ r ∈ l,
        r.startDateISO ≤ r.endDateISO ∧
        some r.startDateISO ∈ townDates r.events ∧
        some r.endDateISO ∈ townDates r.events ∧
        (∀ u : Int, some u ∈ townDates r.events →
          r.startDateISO ≤ u ∧ u ≤ r.endDateISO) := by
  intro today c g l h r hr
  rcases output_elem h r hr with ⟨hse, _, _, hm1, hm2, hb, _, _⟩
  exact ⟨hse, hm1, hm2, hb⟩

/-- C7, witness for the amended theorem at a concrete input. -/
theorem c7_amended_witness :
    oneTownRec.startDateISO ≤ oneTownRec.endDateISO :=
  (c7_amended T0 28 oneTownInput [oneTownRec] (by rfl) oneTownRec
    (List.mem_cons_self _ _)).1

/-- C8, counterexample: a town whose first date string is unparseable makes
`buildTownIndex` throw (`toISOString` RangeError on an Invalid Date), so not
every malformed input produces an output list. -/
theorem c8_counterexample :
    buildTownIndex T0 28 invalidDateInput = Except.error "Invalid time value" :=
  rfl

/-- C8 (amended): a missing `dates` field contributes no dates; an
unparseable date preceded by a parseable one in the same town's scan is
dropped; and whenever every date of every town parses, `buildTownIndex`
returns an output list — but an unparseable FIRST date throws. -/
theorem c8_amended :
    (∀ (today c : Int) (g : List (String × List Event)),
      (∀ p ∈ g, ∀ d ∈ townDates p.2, d ≠ none) →
      ∃ l, buildTownIndex today c g = Except.ok l) ∧
    (∀ w : String, buildRecord w [⟨none⟩] = Except.ok none) ∧
    (buildRecord "x" [⟨some [some 5, none, some 9]⟩]).map
        (Option.map (fun t => (t.startDateISO, t.endDateISO)))
      = Except.ok (some (5, 9)) := by
  refine ⟨?_, fun w => rfl, rfl⟩
  intro today c g hval
  rcases buildRecords_ok_of_valid hval with ⟨rs, hrs⟩
  unfold buildTownIndex classifiedTowns
  rw [hrs]
  exact ⟨_, rfl⟩

/-- C8, witness for the amended theorem at a concrete all-parseable input. -/
theorem c8_amended_witness :
    ∃ l, buildTownIndex T0 28 scenarioInput = Except.ok l :=
  c8_amended.1 T0 28 scenarioInput (by decide)

/-- C9: `slugifyTown` on the three spec examples, and for every input the
result consists of lower-case alphanumerics and single hyphens with no
leading or trailing hyphen. -/
theorem c9_slugify :
    slugifyTown "Stratford-upon-Avon" = "stratford-upon-avon" ∧
    slugifyTown "Bury St Edmunds" = "bury-st-edmunds" ∧
    slugifyTown "A & B Town" = "a-and-b-town" ∧
    (∀ s : String,
      (slugifyTown s).toList.all (fun c => isSlugChar c || c == '-') = true ∧
      (slugifyTown s).toList.head?.all isSlugChar = true ∧
      (slugifyTown s).toList.getLast?.all isSlugChar = true) := by
  refine ⟨by decide, by decide, by decide, ?_⟩
  intro s
  refine ⟨?_, ?_, ?_⟩
  · rw [List.all_eq_true]
    intro c hc
    rcases slug_chars hc with h | rfl
    · simp [h]
    · simp
  · cases hh : (slugifyTown s).toList.head? with
    | none => rfl
    | some c =>
      have hm : c ∈ (slugifyTown s).toList :=
        List.mem_of_mem_head? (Option.mem_def.2 hh)
      have hnd := (slug_ends s).1
      rw [hh] at hnd
      simp only [Option.all_some] at hnd ⊢
      rcases slug_chars hm with h | rfl
      · exact h
      · simp at hnd
  · cases hh : (slugifyTown s).toList.getLast? with
    | none => rfl
    | some c =>
      have hm : c ∈ (slugifyTown s).toList :=
        List.mem_of_mem_getLast? (Option.mem_def.2 hh)
      have hnd := (slug_ends s).2
      rw [hh] at hnd
      simp only [Option.all_some] at hnd ⊢
      rcases slug_chars hm with h | rfl
      · exact h
      · simp at hnd

/-- C10: the list returned by `buildTownIndex` is sorted by ascending
`startDateISO` irrespective of status, and equals the promoted classified
list with only the `PAST` records removed — no post-classification
reordering. -/
theorem c10_sorted_by_start :
    ∀ (today c : Int) (g : List (String × List Event)) (ts l : List TownRecord),
      classifiedTowns today c g = Except.ok ts →
      buildTownIndex today c g = Except.ok l →
      List.Pairwise (fun a b => a.startDateISO ≤ b.startDateISO) l ∧
      l = (promote today ts).filter (fun t => t.status != Status.PAST) := by
  intro today c g ts l hct h
  refine ⟨output_sorted h, ?_⟩
  rcases buildTownIndex_ok h with ⟨ts2, hct2, rfl⟩
  have he := hct.symm.trans hct2
  injection he with he
  rw [he]

/-- C10, witness at a concrete input. -/
theorem c10_witness :
    List.Pairwise (fun a b : TownRecord => a.startDateISO ≤ b.startDateISO) [newRec] :=
  (c10_sorted_by_start T0 28 pastTownInput [oldRec, newComingRec] [newRec] (by rfl) (by rfl)).1

end Reagal
